import Mathlib

/-! Verification development for the fynorra-rag-backend repository.

Shallow embedding conventions: Python `str` values are modelled as
`List Char` (Python strings index unicode code points, matching `Char`);
machine integers are `Nat`/`Int`; fallible code returns `Except`/`Option`;
unbounded loops are fuel-indexed, with `none` modelling a run that does not
finish. External libraries (the Fernet cipher, the PDF readers) appear as
abstract inputs or spec-modelled definitions, marked as such in their doc
comments. -/

namespace Fynorra

/-- Python `s.strip()`: remove leading and trailing whitespace, as used by
`src/ingest/chunker.py` and `backend/api/rag_router.py`. -/
def pstrip (s : List Char) : List Char :=
  ((s.dropWhile Char.isWhitespace).reverse.dropWhile Char.isWhitespace).reverse

/-- Python `hay.rfind(pat)`: the greatest index at which `pat` occurs in
`hay`, `none` when absent (Python returns -1 there; the chunker's guard
`last_break > chunk_size * 0.5` is never satisfied by -1 since sizes are
non-negative, so -1 and `none` coincide behaviourally). -/
def rfindSub (hay pat : List Char) : Option Nat :=
  (((List.range (hay.length + 1)).filter
    (fun i => pat.isPrefixOf (hay.drop i)))).max?

/-- The sentence-break markers of `TextChunker.chunk_text` /
`TextChunker.chunk_pages` (src/ingest/chunker.py), in source priority
order: `".\n"`, `".\n\n"`, `".\n "`, `"\n\n"`, `"\n"`. -/
def breakPats : List (List Char) :=
  [['.', '\n'], ['.', '\n', '\n'], ['.', '\n', ' '], ['\n', '\n'], ['\n']]

/-- One iteration of the break-marker loop:
`last_break = chunk_text.rfind(break_char); if last_break > chunk_size * 0.5`.
For an integer `last_break` the float guard `last_break > cs * 0.5` is
equivalent to `cs < 2 * last_break`. -/
def tryBreak (cs : Nat) (piece pat : List Char) : Option Nat :=
  match rfindSub piece pat with
  | some lb => if cs < 2 * lb then some lb else none
  | none => none

/-- The `for break_char in [...]` search of the chunker: the first marker
(in priority order) whose last occurrence lies beyond half the window. -/
def findCut (cs : Nat) (piece : List Char) : Option Nat :=
  breakPats.findSome? (tryBreak cs piece)

/-- The adjusted window end of one loop iteration of
`TextChunker.chunk_text` / `chunk_pages`: `end = min(start + cs, len)`,
moved back to `start + last_break + 1` when a sentence-break marker is
accepted (only attempted while `end < len`).
`text[start:end]` is `(text.drop start).take (end - start)`. -/
def stepEnd (cs : Nat) (text : List Char) (start : Nat) : Nat :=
  let e := min (start + cs) text.length
  if e < text.length then
    match findCut cs ((text.drop start).take (e - start)) with
    | some lb => start + lb + 1
    | none => e
  else e

/-- The next value of `start`:
`start = end - overlap if end < text_length else end`. -/
def nextStart (cs ov : Nat) (text : List Char) (start : Nat) : Nat :=
  if stepEnd cs text start < text.length then stepEnd cs text start - ov
  else stepEnd cs text start

/-- A chunk dict produced by `TextChunker.chunk_text`:
`{"content": chunk_text.strip(), "start_char": start, "end_char": end}`. -/
structure ChunkRec where
  content : List Char
  start_char : Nat
  end_char : Nat
deriving Repr, DecidableEq

/-- The chunk emitted by one iteration of `chunk_text`. -/
def stepChunk (cs : Nat) (text : List Char) (start : Nat) : ChunkRec :=
  ⟨pstrip ((text.drop start).take (stepEnd cs text start - start)), start,
    stepEnd cs text start⟩

/-- The while-loop of `TextChunker.chunk_text` (src/ingest/chunker.py,
lines 27-52), fuel-indexed: `none` models a run that does not finish within
`fuel` iterations (the Python loop is unbounded; its termination is
claim C9). -/
def chunkTextGo (cs ov : Nat) (text : List Char) (start fuel : Nat) :
    Option (List ChunkRec) :=
  match fuel with
  | 0 => if start < text.length then none else some []
  | fuel + 1 =>
    if start < text.length then
      match chunkTextGo cs ov text (nextStart cs ov text start) fuel with
      | some rest => some (stepChunk cs text start :: rest)
      | none => none
    else some []

/-- `TextChunker.chunk_text` run with `text.length` units of fuel (shown
sufficient for sane parameters in the C9 theorem). The source's early
`if not text: return []` coincides with the loop guard failing at
`start = 0` on empty text. -/
def chunk_text (cs ov : Nat) (text : List Char) : Option (List ChunkRec) :=
  chunkTextGo cs ov text 0 text.length

example :
    chunk_text 5 2 ['a', 'a', 'a', 'a', 'a', 'a', 'a', 'a', 'a', 'a'] =
    some [⟨['a', 'a', 'a', 'a', 'a'], 0, 5⟩,
          ⟨['a', 'a', 'a', 'a', 'a'], 3, 8⟩,
          ⟨['a', 'a', 'a', 'a'], 6, 10⟩] := by decide

example :
    chunk_text 6 2 ("abcd.\nefghij".data) =
    some [⟨"abcd.".data, 0, 5⟩, ⟨"d.\nefg".data, 3, 9⟩, ⟨"fghij".data, 7, 12⟩]
    := by decide

theorem rfindSub_bound {piece pat : List Char} {lb : Nat}
    (hpat : pat ≠ []) (h : rfindSub piece pat = some lb) :
    lb + 1 ≤ piece.length := by
  have hmem : lb ∈ (List.range (piece.length + 1)).filter
      (fun i => pat.isPrefixOf (piece.drop i)) :=
    List.max?_mem (fun a b => max_choice a b) h
  have hpre := (List.mem_filter.mp hmem).2
  have hpre' : pat <+: piece.drop lb := by
    exact List.isPrefixOf_iff_prefix.mp hpre
  have hlen : pat.length ≤ (piece.drop lb).length := hpre'.length_le
  have hpos : 1 ≤ pat.length := List.length_pos.mpr hpat
  simp only [List.length_drop] at hlen
  omega

theorem tryBreak_some {cs : Nat} {piece pat : List Char} {lb : Nat}
    (hpat : pat ≠ []) (h : tryBreak cs piece pat = some lb) :
    cs < 2 * lb ∧ lb + 1 ≤ piece.length := by
  unfold tryBreak at h
  split at h
  next k hr =>
    by_cases hc : cs < 2 * k
    · rw [if_pos hc] at h
      cases h
      exact ⟨hc, rfindSub_bound hpat hr⟩
    · rw [if_neg hc] at h
      exact absurd h (by simp)
  next hr => exact absurd h (by simp)

theorem findCut_some {cs : Nat} {piece : List Char} {lb : Nat}
    (h : findCut cs piece = some lb) :
    cs < 2 * lb ∧ lb + 1 ≤ piece.length := by
  obtain ⟨pat, hpat, hp⟩ := List.exists_of_findSome?_eq_some h
  have hne : pat ≠ [] := by
    simp only [breakPats, List.mem_cons, List.not_mem_nil, or_false] at hpat
    rcases hpat with h | h | h | h | h <;> subst h <;> simp
  exact tryBreak_some hne hp

theorem stepEnd_bounds {cs : Nat} {text : List Char} {start : Nat}
    (hs : start < text.length) (hcs : 1 ≤ cs) :
    start < stepEnd cs text start ∧ stepEnd cs text start ≤ text.length ∧
      stepEnd cs text start - start ≤ cs := by
  unfold stepEnd
  by_cases he : min (start + cs) text.length < text.length
  · simp only [if_pos he]
    split
    next lb hf =>
      obtain ⟨hlb, hlen⟩ := findCut_some hf
      simp only [List.length_take, List.length_drop] at hlen
      refine ⟨?_, ?_, ?_⟩ <;> omega
    next hf =>
      refine ⟨?_, ?_, ?_⟩ <;> omega
  · simp only [if_neg he]
    refine ⟨?_, ?_, ?_⟩ <;> omega

theorem stepEnd_progress {cs ov : Nat} {text : List Char} {start : Nat}
    (hs : start < text.length) (hcs : 1 ≤ cs) (hov : 2 * ov ≤ cs)
    (hlt : stepEnd cs text start < text.length) :
    start + ov < stepEnd cs text start := by
  -- either the raw window end start + cs, or a cut at start + lb + 1 with
  -- cs < 2 * lb; in both cases end - start > ov since 2 * ov <= cs.
  unfold stepEnd at hlt ⊢
  by_cases he : min (start + cs) text.length < text.length
  · simp only [if_pos he] at hlt ⊢
    split
    next lb hf =>
      obtain ⟨hlb, _⟩ := findCut_some hf
      omega
    next hf => omega
  · simp only [if_neg he] at hlt
    exact absurd hlt he

theorem nextStart_gt {cs ov : Nat} {text : List Char} {start : Nat}
    (hs : start < text.length) (hcs : 1 ≤ cs) (hov : 2 * ov ≤ cs) :
    start < nextStart cs ov text start := by
  unfold nextStart
  by_cases hlt : stepEnd cs text start < text.length
  · simp only [if_pos hlt]
    have := stepEnd_progress hs hcs hov hlt
    omega
  · simp only [if_neg hlt]
    exact (stepEnd_bounds hs hcs).1

theorem chunkTextGo_total (cs ov : Nat) (text : List Char)
    (hcs : 1 ≤ cs) (hov : 2 * ov ≤ cs) :
    ∀ fuel start, text.length - start ≤ fuel →
      (chunkTextGo cs ov text start fuel).isSome := by
  intro fuel
  induction fuel with
  | zero =>
    intro start hle
    unfold chunkTextGo
    have : ¬ start < text.length := by omega
    simp [this]
  | succ fuel ih =>
    intro start hle
    unfold chunkTextGo
    by_cases hs : start < text.length
    · simp only [if_pos hs]
      have hnext := nextStart_gt hs hcs hov
      have hrec := ih (nextStart cs ov text start) (by omega)
      cases hres : chunkTextGo cs ov text (nextStart cs ov text start) fuel with
      | some rest => simp
      | none => rw [hres] at hrec; exact absurd hrec (by simp)
    · simp [hs]

theorem chunkTextGo_spec (cs ov : Nat) (text : List Char) (hcs : 1 ≤ cs) :
    ∀ fuel start l, chunkTextGo cs ov text start fuel = some l →
      (∀ c ∈ l, c.start_char < c.end_char ∧ c.end_char - c.start_char ≤ cs ∧
        c.end_char ≤ text.length) ∧
      (∀ c ∈ l.head?, c.start_char = start) ∧
      (text.length ≤ start → l = []) ∧
      List.Chain' (fun a b =>
        b.start_char = a.end_char - ov ∧ a.start_char < a.end_char) l := by
  intro fuel
  induction fuel with
  | zero =>
    intro start l h
    unfold chunkTextGo at h
    by_cases hs : start < text.length
    · rw [if_pos hs] at h; exact absurd h (by simp)
    · rw [if_neg hs] at h
      cases h
      exact ⟨by simp, by simp, fun _ => rfl, by simp⟩
  | succ fuel ih =>
    intro start l h
    unfold chunkTextGo at h
    by_cases hs : start < text.length
    · rw [if_pos hs] at h
      cases hres : chunkTextGo cs ov text (nextStart cs ov text start) fuel with
      | none => rw [hres] at h; exact absurd h (by simp)
      | some rest =>
        rw [hres] at h
        cases h
        obtain ⟨hb1, hb2, hb3⟩ := stepEnd_bounds hs hcs
        obtain ⟨ih1, ih2, ih3, ih4⟩ := ih (nextStart cs ov text start) rest hres
        refine ⟨?_, ?_, ?_, ?_⟩
        · intro c hc
          rcases List.mem_cons.mp hc with hc | hc
          · subst hc
            exact ⟨hb1, hb3, hb2⟩
          · exact ih1 c hc
        · intro c hc
          simp only [List.head?_cons, Option.mem_def, Option.some.injEq] at hc
          subst hc
          rfl
        · intro hlen
          omega
        · rw [List.chain'_cons']
          refine ⟨?_, ih4⟩
          intro b hb
          have hbs := ih2 b hb
          simp only [stepChunk]
          by_cases hlt : stepEnd cs text start < text.length
          · have hn : nextStart cs ov text start =
                stepEnd cs text start - ov := by
              unfold nextStart
              rw [if_pos hlt]
            exact ⟨by rw [hbs, hn], hb1⟩
          · -- stepEnd reached end of text: the recursive call starts at
            -- text.length, so rest = [] and no head exists.
            have hn : nextStart cs ov text start = stepEnd cs text start := by
              unfold nextStart
              rw [if_neg hlt]
            have hrest : rest = [] := ih3 (by omega)
            subst hrest
            exact absurd hb (by simp)
    · rw [if_neg hs] at h
      cases h
      exact ⟨by simp, by simp, fun _ => rfl, by simp⟩

/-- C3: for every input text chunked by the flat character chunker
`TextChunker.chunk_text` with `chunk_size = 50` and `overlap = 10` (hence in
particular every 500-character input), the run terminates, every returned
chunk satisfies `end_char - start_char ≤ chunk_size`, and for every pair of
consecutive chunks the second chunk's `start_char` is strictly less than the
first chunk's `end_char` (the next window starts at `end - overlap` whenever
the chunk did not reach end-of-text). -/
theorem C3_flat_chunker_window_overlap (text : List Char) :
    ∃ l, chunk_text 50 10 text = some l ∧
      (∀ c ∈ l, c.end_char - c.start_char ≤ 50) ∧
      List.Chain' (fun a b => b.start_char < a.end_char) l := by
  have htot := chunkTextGo_total 50 10 text (by omega) (by omega)
      text.length 0 (by omega)
  obtain ⟨l, hl⟩ := Option.isSome_iff_exists.mp htot
  obtain ⟨h1, _, _, h4⟩ := chunkTextGo_spec 50 10 text (by omega)
      text.length 0 l hl
  refine ⟨l, hl, fun c hc => (h1 c hc).2.1, ?_⟩
  refine h4.imp ?_
  rintro a b ⟨hab, ha⟩
  omega

/-- C9 (amended): `TextChunker.chunk_text` terminates for every input text
under the preconditions `1 ≤ chunk_size` and `chunk_overlap ≤ chunk_size/2`
(the claim's original precondition lacked `1 ≤ chunk_size`; see the
counterexample): every loop iteration strictly increases the window start,
because a sentence-boundary cut is only accepted beyond half the window.
Both shipped configurations (1000/200 and 800/100) satisfy the
preconditions. -/
theorem C9_chunk_text_terminates (cs ov : Nat) (text : List Char)
    (hcs : 1 ≤ cs) (hov : 2 * ov ≤ cs) :
    (chunk_text cs ov text).isSome :=
  chunkTextGo_total cs ov text hcs hov text.length 0 (by omega)

/-- Witness for C9 at the shipped configuration `chunk_size = 1000`,
`overlap = 200` (and checking `800/100` satisfies the precondition too). -/
theorem C9_chunk_text_terminates_witness :
    (1 ≤ 1000 ∧ 2 * 200 ≤ 1000) ∧ (1 ≤ 800 ∧ 2 * 100 ≤ 800) ∧
      (chunk_text 1000 200 ("hello world".data)).isSome :=
  ⟨by decide, by decide,
    C9_chunk_text_terminates 1000 200 ("hello world".data)
      (by decide) (by decide)⟩

theorem chunkTextGo_zero_stuck :
    ∀ fuel, chunkTextGo 0 0 ['a'] 0 fuel = none := by
  intro fuel
  induction fuel with
  | zero => decide
  | succ fuel ih =>
    have hn : nextStart 0 0 ['a'] 0 = 0 := by decide
    unfold chunkTextGo
    rw [hn, ih]
    decide

/-- Counterexample for C9 as stated: with `chunk_size = 0` and
`chunk_overlap = 0` the precondition `chunk_overlap ≤ chunk_size / 2` holds,
yet on the one-character text "a" the loop never advances (`end = start`,
`start = end - overlap = start`), so no amount of fuel completes the run. -/
theorem C9_chunk_text_terminates_counterexample :
    ¬ (∀ cs ov : Nat, ∀ text : List Char, 2 * ov ≤ cs →
        ∃ fuel, (chunkTextGo cs ov text 0 fuel).isSome) := by
  intro h
  obtain ⟨fuel, hfuel⟩ := h 0 0 ['a'] (by decide)
  rw [chunkTextGo_zero_stuck fuel] at hfuel
  exact absurd hfuel (by simp)

/-- A chunk dict produced by `TextChunker.chunk_pages`:
`{"text", "page", "chunk_index", "start_char", "end_char", "preview"}`. -/
structure PChunk where
  text : List Char
  page : Nat
  chunk_index : Nat
  start_char : Nat
  end_char : Nat
  preview : List Char
deriving Repr, DecidableEq

/-- The chunk emitted by one iteration of the inner loop of `chunk_pages`:
same windowing as `chunk_text`, plus 1-based page number `pg`, global chunk
index `gidx` and a 200-character preview of the stripped text. -/
def stepPChunk (mc : Nat) (page : List Char) (pg gidx start : Nat) : PChunk :=
  ⟨pstrip ((page.drop start).take (stepEnd mc page start - start)), pg, gidx,
    start, stepEnd mc page start,
    (pstrip ((page.drop start).take (stepEnd mc page start - start))).take 200⟩

/-- The inner while-loop of `TextChunker.chunk_pages` (src/ingest/chunker.py,
lines 75-104), fuel-indexed like `chunkTextGo`; it applies the identical
windowing/sentence-boundary logic within a single page string. -/
def chunkPagesGo (mc ov : Nat) (page : List Char) (pg gidx start fuel : Nat) :
    Option (List PChunk) :=
  match fuel with
  | 0 => if start < page.length then none else some []
  | fuel + 1 =>
    if start < page.length then
      match chunkPagesGo mc ov page pg (gidx + 1)
          (nextStart mc ov page start) fuel with
      | some rest => some (stepPChunk mc page pg gidx start :: rest)
      | none => none
    else some []

/-- The page loop of `TextChunker.chunk_pages` (src/ingest/chunker.py, lines
54-107): pages whose stripped text is empty are skipped (`continue`), the
page number is the 1-based enumeration index, and the chunk index is global
across pages. -/
def chunkPagesAux (mc ov : Nat) (pages : List (List Char))
    (pageIdx gidx : Nat) : Option (List PChunk) :=
  match pages with
  | [] => some []
  | p :: rest =>
    if (pstrip p).isEmpty then chunkPagesAux mc ov rest (pageIdx + 1) gidx
    else
      match chunkPagesGo mc ov p (pageIdx + 1) gidx 0 p.length with
      | some l =>
        match chunkPagesAux mc ov rest (pageIdx + 1) (gidx + l.length) with
        | some r => some (l ++ r)
        | none => none
      | none => none

/-- `TextChunker.chunk_pages` on a list of page strings (the effective
`max_chars`/`overlap` arguments; the `or`-defaulting at its entry is
modelled separately for C10). -/
def chunk_pages (mc ov : Nat) (pages : List (List Char)) :
    Option (List PChunk) :=
  chunkPagesAux mc ov pages 0 0

example :
    chunk_pages 1000 200 ["  \n ".data, "Page one.".data, "Page two!".data] =
    some [⟨"Page one.".data, 2, 0, 0, 9, "Page one.".data⟩,
          ⟨"Page two!".data, 3, 1, 0, 9, "Page two!".data⟩] := by decide

theorem pstrip_isInfix (s : List Char) : pstrip s <:+: s := by
  unfold pstrip
  have h1 : s.dropWhile Char.isWhitespace <:+ s :=
    List.dropWhile_suffix Char.isWhitespace
  have h2 : (s.dropWhile Char.isWhitespace).reverse.dropWhile
      Char.isWhitespace <:+ (s.dropWhile Char.isWhitespace).reverse :=
    List.dropWhile_suffix Char.isWhitespace
  have h3 : ((s.dropWhile Char.isWhitespace).reverse.dropWhile
      Char.isWhitespace).reverse <+: s.dropWhile Char.isWhitespace := by
    rw [← List.reverse_suffix]
    simpa using h2
  exact h3.isInfix.trans h1.isInfix

theorem slice_isInfix (s : List Char) (i k : Nat) :
    (s.drop i).take k <:+: s := by
  have h1 := List.take_prefix k (s.drop i)
  have h2 := List.drop_suffix i s
  exact h1.isInfix.trans h2.isInfix

theorem chunkPagesGo_total (mc ov : Nat) (page : List Char)
    (hmc : 1 ≤ mc) (hov : 2 * ov ≤ mc) :
    ∀ fuel pg gidx start, page.length - start ≤ fuel →
      (chunkPagesGo mc ov page pg gidx start fuel).isSome := by
  intro fuel
  induction fuel with
  | zero =>
    intro pg gidx start hle
    unfold chunkPagesGo
    have : ¬ start < page.length := by omega
    simp [this]
  | succ fuel ih =>
    intro pg gidx start hle
    unfold chunkPagesGo
    by_cases hs : start < page.length
    · simp only [if_pos hs]
      have hnext := nextStart_gt hs hmc hov
      have hrec := ih pg (gidx + 1) (nextStart mc ov page start) (by omega)
      cases hres : chunkPagesGo mc ov page pg (gidx + 1)
          (nextStart mc ov page start) fuel with
      | some rest => simp
      | none => rw [hres] at hrec; exact absurd hrec (by simp)
    · simp [hs]

theorem chunkPagesGo_spec (mc ov : Nat) (page : List Char) :
    ∀ fuel pg gidx start l, chunkPagesGo mc ov page pg gidx start fuel = some l →
      (∀ c ∈ l, c.page = pg ∧ c.text <:+: page) ∧
      l.map (fun c => c.chunk_index) = List.range' gidx l.length := by
  intro fuel
  induction fuel with
  | zero =>
    intro pg gidx start l h
    unfold chunkPagesGo at h
    by_cases hs : start < page.length
    · rw [if_pos hs] at h; exact absurd h (by simp)
    · rw [if_neg hs] at h
      cases h
      exact ⟨by simp, by simp [List.range']⟩
  | succ fuel ih =>
    intro pg gidx start l h
    unfold chunkPagesGo at h
    by_cases hs : start < page.length
    · rw [if_pos hs] at h
      cases hres : chunkPagesGo mc ov page pg (gidx + 1)
          (nextStart mc ov page start) fuel with
      | none => rw [hres] at h; exact absurd h (by simp)
      | some rest =>
        rw [hres] at h
        cases h
        obtain ⟨ih1, ih2⟩ := ih pg (gidx + 1) (nextStart mc ov page start) rest hres
        constructor
        · intro c hc
          rcases List.mem_cons.mp hc with hc | hc
          · subst hc
            refine ⟨rfl, ?_⟩
            exact ((pstrip_isInfix _).trans (slice_isInfix page start _))
          · exact ih1 c hc
        · simp only [List.map_cons, List.length_cons, List.range'_succ]
          rw [ih2]
          rfl
    · rw [if_neg hs] at h
      cases h
      exact ⟨by simp, by simp [List.range']⟩

theorem mem_of_getLast?_mem {α : Type} {l : List α} {x : α}
    (h : x ∈ l.getLast?) : x ∈ l := by
  obtain ⟨hne, rfl⟩ := List.mem_getLast?_eq_getLast h
  exact List.getLast_mem hne

theorem chunkPagesAux_spec (mc ov : Nat) (hmc : 1 ≤ mc) (hov : 2 * ov ≤ mc) :
    ∀ (pages : List (List Char)) (pageIdx gidx : Nat),
      ∃ L, chunkPagesAux mc ov pages pageIdx gidx = some L ∧
        (∀ c ∈ L, ∃ j p, pages[j]? = some p ∧ c.page = pageIdx + j + 1 ∧
          c.text <:+: p ∧ pstrip p ≠ []) ∧
        L.map (fun c => c.chunk_index) = List.range' gidx L.length ∧
        List.Chain' (fun a b => a.page ≤ b.page) L := by
  intro pages
  induction pages with
  | nil =>
    intro pageIdx gidx
    exact ⟨[], rfl, by simp, by simp [List.range'], by simp⟩
  | cons p rest ih =>
    intro pageIdx gidx
    unfold chunkPagesAux
    by_cases hskip : (pstrip p).isEmpty
    · rw [if_pos hskip]
      obtain ⟨L, hL, hmem, hidx, hch⟩ := ih (pageIdx + 1) gidx
      refine ⟨L, hL, ?_, hidx, hch⟩
      intro c hc
      obtain ⟨j, q, hq, hpage, hinf, hne⟩ := hmem c hc
      exact ⟨j + 1, q, by simpa using hq, by omega, hinf, hne⟩
    · rw [if_neg hskip]
      have htot := chunkPagesGo_total mc ov p hmc hov p.length (pageIdx + 1)
          gidx 0 (by omega)
      obtain ⟨l, hl⟩ := Option.isSome_iff_exists.mp htot
      obtain ⟨hl1, hl2⟩ := chunkPagesGo_spec mc ov p p.length (pageIdx + 1)
          gidx 0 l hl
      obtain ⟨r, hr, hrmem, hridx, hrch⟩ := ih (pageIdx + 1) (gidx + l.length)
      have heq : (match chunkPagesGo mc ov p (pageIdx + 1) gidx 0 p.length with
          | some l =>
            match chunkPagesAux mc ov rest (pageIdx + 1) (gidx + l.length) with
            | some r => some (l ++ r)
            | none => none
          | none => none) = some (l ++ r) := by
        rw [hl]
        show (match chunkPagesAux mc ov rest (pageIdx + 1) (gidx + l.length) with
          | some r => some (l ++ r)
          | none => none) = some (l ++ r)
        rw [hr]
      rw [heq]
      refine ⟨l ++ r, rfl, ?_, ?_, ?_⟩
      · intro c hc
        rcases List.mem_append.mp hc with hc | hc
        · obtain ⟨hpg, hinf⟩ := hl1 c hc
          refine ⟨0, p, by simp, by omega, hinf, ?_⟩
          intro hemp
          rw [hemp] at hskip
          exact hskip (by simp)
        · obtain ⟨j, q, hq, hpage, hinf, hne⟩ := hrmem c hc
          exact ⟨j + 1, q, by simpa using hq, by omega, hinf, hne⟩
      · rw [List.map_append, hl2, hridx, List.length_append]
        have := List.range'_append gidx l.length r.length 1
        simp only [one_mul] at this
        rw [this]
        ring_nf
      · rw [List.chain'_append]
        refine ⟨?_, hrch, ?_⟩
        · refine List.Pairwise.chain' ?_
          rw [List.pairwise_iff_getElem]
          intro i j hi hj hij
          rw [(hl1 _ (List.getElem_mem hi)).1, (hl1 _ (List.getElem_mem hj)).1]
        · intro x hx y hy
          have hxl : x ∈ l := mem_of_getLast?_mem hx
          have hyr : y ∈ r := List.mem_of_mem_head? hy
          obtain ⟨j, q, _, hpage, _, _⟩ := hrmem y hyr
          rw [(hl1 x hxl).1, hpage]
          omega

/-- C4: for every list of page strings (and any effective parameters
satisfying the termination precondition, in particular the configured
defaults 1000/200), `TextChunker.chunk_pages` returns chunks each of whose
text is drawn from exactly one page (an infix of the page it is labelled
with — no chunk straddles a page boundary), with 1-based page numbers that
are non-decreasing across the returned sequence, `chunk_index` values
0,1,2,... strictly increasing, no chunk contributed by a page consisting
only of whitespace, and an empty pages list yielding no chunks. -/
theorem C4_page_chunker_invariants (mc ov : Nat) (pages : List (List Char))
    (hmc : 1 ≤ mc) (hov : 2 * ov ≤ mc) :
    ∃ L, chunk_pages mc ov pages = some L ∧
      (∀ c ∈ L, ∃ j p, pages[j]? = some p ∧ c.page = j + 1 ∧
        c.text <:+: p ∧ pstrip p ≠ []) ∧
      List.Chain' (fun a b => a.page ≤ b.page) L ∧
      L.map (fun c => c.chunk_index) = List.range L.length ∧
      (pages = [] → L = []) := by
  obtain ⟨L, hL, hmem, hidx, hch⟩ := chunkPagesAux_spec mc ov hmc hov pages 0 0
  refine ⟨L, hL, ?_, hch, ?_, ?_⟩
  · intro c hc
    obtain ⟨j, p, hp, hpage, hinf, hne⟩ := hmem c hc
    exact ⟨j, p, hp, by omega, hinf, hne⟩
  · rw [hidx, List.range_eq_range']
  · intro hnil
    subst hnil
    unfold chunkPagesAux at hL
    cases hL
    rfl

/-- Witness for C4 at the configured defaults on a concrete pages list
(with a whitespace-only page in the middle). -/
theorem C4_page_chunker_invariants_witness :
    (1 ≤ 1000 ∧ 2 * 200 ≤ 1000) ∧
      (∃ L, chunk_pages 1000 200
          ["First page.".data, "  ".data, "Second page.".data] = some L ∧
        (∀ c ∈ L, ∃ j p,
          (["First page.".data, "  ".data, "Second page.".data])[j]? = some p ∧
          c.page = j + 1 ∧ c.text <:+: p ∧ pstrip p ≠ []) ∧
        List.Chain' (fun a b => a.page ≤ b.page) L ∧
        L.map (fun c => c.chunk_index) = List.range L.length ∧
        (["First page.".data, "  ".data, "Second page.".data] =
          ([] : List (List Char)) → L = [])) :=
  ⟨by decide,
    C4_page_chunker_invariants 1000 200
      ["First page.".data, "  ".data, "Second page.".data]
      (by decide) (by decide)⟩

/-- Python `x or default` on an optional integer argument: `None` and `0`
are both falsy and replaced by the default. -/
def pyOr (arg : Option Nat) (d : Nat) : Nat :=
  match arg with
  | none => d
  | some n => if n = 0 then d else n

/-- The state created by `TextChunker.__init__(chunk_size, chunk_overlap)`
(src/ingest/chunker.py, lines 9-11):
`self.chunk_size = chunk_size or Config.CHUNK_SIZE;
self.chunk_overlap = chunk_overlap or Config.CHUNK_OVERLAP`.
`cfgSize`/`cfgOv` are the configured defaults `Config.CHUNK_SIZE` /
`Config.CHUNK_OVERLAP` (1000 and 200 unless overridden by environment). -/
structure TextChunkerCfg where
  chunk_size : Nat
  chunk_overlap : Nat
deriving Repr, DecidableEq

def mkTextChunker (cfgSize cfgOv : Nat) (chunk_size chunk_overlap : Option Nat) :
    TextChunkerCfg :=
  ⟨pyOr chunk_size cfgSize, pyOr chunk_overlap cfgOv⟩

/-- The entry of `TextChunker.chunk_pages` (src/ingest/chunker.py, lines
66-67): `max_chars = max_chars or self.chunk_size;
overlap = overlap or self.chunk_overlap`, then the page loop. -/
def chunk_pages_method (c : TextChunkerCfg) (max_chars overlap : Option Nat)
    (pages : List (List Char)) : Option (List PChunk) :=
  chunk_pages (pyOr max_chars c.chunk_size) (pyOr overlap c.chunk_overlap) pages

/-- C10: zero cannot be selected as a chunking parameter at the public
interface: constructing `TextChunker` with `chunk_size=0` or
`chunk_overlap=0`, or calling `chunk_pages` with `max_chars=0` or
`overlap=0`, silently substitutes the configured defaults (falsy arguments
are replaced via `or`), so a caller can never obtain zero-overlap chunking
through these parameters (as long as the configured default overlap is
itself non-zero). -/
theorem C10_zero_params_replaced (cfgSize cfgOv : Nat)
    (csArg ovArg : Option Nat) (pages : List (List Char))
    (hcfg : cfgOv ≠ 0) :
    mkTextChunker cfgSize cfgOv (some 0) (some 0) =
      mkTextChunker cfgSize cfgOv none none ∧
    (mkTextChunker cfgSize cfgOv (some 0) (some 0)).chunk_size = cfgSize ∧
    (mkTextChunker cfgSize cfgOv (some 0) (some 0)).chunk_overlap = cfgOv ∧
    chunk_pages_method (mkTextChunker cfgSize cfgOv none none)
        (some 0) (some 0) pages =
      chunk_pages cfgSize cfgOv pages ∧
    (mkTextChunker cfgSize cfgOv csArg ovArg).chunk_overlap ≠ 0 := by
  refine ⟨rfl, rfl, rfl, rfl, ?_⟩
  unfold mkTextChunker pyOr
  cases ovArg with
  | none => exact hcfg
  | some n =>
    by_cases hn : n = 0
    · simp [hn, hcfg]
    · simp [hn]

/-- Witness for C10 at the configured defaults 1000/200 and arbitrary
concrete arguments. -/
theorem C10_zero_params_replaced_witness :
    (200 ≠ 0) ∧
      (mkTextChunker 1000 200 (some 0) (some 0) =
        mkTextChunker 1000 200 none none ∧
      (mkTextChunker 1000 200 (some 0) (some 0)).chunk_size = 1000 ∧
      (mkTextChunker 1000 200 (some 0) (some 0)).chunk_overlap = 200 ∧
      chunk_pages_method (mkTextChunker 1000 200 none none)
          (some 0) (some 0) ["hi".data] =
        chunk_pages 1000 200 ["hi".data] ∧
      (mkTextChunker 1000 200 (some 0) (some 7)).chunk_overlap ≠ 0) :=
  ⟨by decide,
    C10_zero_params_replaced 1000 200 (some 0) (some 7) ["hi".data]
      (by decide)⟩

/-- Job / document status strings used by the ingestion workers. -/
inductive IngStatus
  | pending
  | processing
  | completed
  | failed
deriving Repr, DecidableEq

/-- The database state a worker run leaves behind: the IngestJob's final
status and error message, and the Document's final status. -/
structure WorkerOutcome where
  jobStatus : IngStatus
  jobError : Option (List Char)
  docStatus : IngStatus
deriving Repr, DecidableEq

def noChunksError : List Char := "No text chunks extracted from document".data

/-- Embedding of the control flow of `process_doc`
(src/tasks/worker_upsert_pinecone.py, lines 14-195) for runs where the job
and the document exist and extraction succeeds with page list `pages`; the
external steps after chunking (Pinecone text upsert, chunk persistence)
are modelled by `tailOk` — `false` means one of them raises `tailErr`,
taking the generic exception handler (lines 177-192) which marks job and
document failed and re-raises. Chunking runs with `Config.CHUNK_SIZE` /
`Config.CHUNK_OVERLAP` (parameters `cs`/`ov` here); a non-terminating
chunking run (claim C9) surfaces as `none`. Zero chunks is an explicit
failure branch (lines 91-97) reached before any external call. -/
def process_doc (cs ov : Nat) (tailOk : Bool) (tailErr : List Char)
    (pages : List (List Char)) : Option WorkerOutcome :=
  (chunk_pages cs ov pages).map fun chunks =>
    if chunks.isEmpty then ⟨.failed, some noChunksError, .failed⟩
    else if tailOk then ⟨.completed, none, .completed⟩
    else ⟨.failed, some tailErr, .failed⟩

/-- Embedding of the control flow of `ingest_upload_file_task`
(src/tasks/ingest_job.py, lines 14-121) for runs where the job and the
document exist and extraction succeeds with text `text`. This worker has no
zero-chunk guard: with zero chunks the embedding request is skipped
(`embed_texts([])` returns `[]` without any network call), the vector
upsert is a no-op (`upsert_vectors([])` returns immediately), the empty
chunk list is bulk-saved, and the job and the document are marked
completed. `tailOk = false` models an exception in the external steps,
taking the handler at lines 106-119. -/
def ingest_upload_file_task (cs ov : Nat) (tailOk : Bool) (tailErr : List Char)
    (text : List Char) : Option WorkerOutcome :=
  (chunk_text cs ov text).map fun _chunks =>
    if tailOk then ⟨.completed, none, .completed⟩
    else ⟨.failed, some tailErr, .failed⟩

/-- Counterexample for C2 as stated: the claim's sources include the
`ingest_upload_file_task` worker (src/tasks/ingest_job.py), and a run of
that worker in which the job and the document exist and chunking produces
zero chunks (e.g. a file whose extracted text is empty) ends with the job
marked completed — not failed. -/
theorem C2_zero_chunks_failure_counterexample :
    chunk_text 1000 200 [] = some [] ∧
      ingest_upload_file_task 1000 200 true [] [] =
        some ⟨.completed, none, .completed⟩ := by
  exact ⟨rfl, rfl⟩

/-- C2 (amended): restricted to the integrated-embeddings worker
`process_doc` (src/tasks/worker_upsert_pinecone.py) the claim holds: for
every run where the job and document exist and the chunking step produces
zero chunks, the job ends failed with a non-empty error message and the
document ends failed; the job is never marked completed. (The legacy
`ingest_upload_file_task` worker instead completes a zero-chunk run, per
the counterexample.) -/
theorem C2_zero_chunks_is_failure (cs ov : Nat) (tailOk : Bool)
    (tailErr : List Char) (pages : List (List Char))
    (hzero : chunk_pages cs ov pages = some []) :
    process_doc cs ov tailOk tailErr pages =
      some ⟨.failed, some noChunksError, .failed⟩ ∧
    noChunksError ≠ [] ∧
    ∀ out ∈ process_doc cs ov tailOk tailErr pages,
      out.jobStatus ≠ .completed := by
  have hpd : process_doc cs ov tailOk tailErr pages =
      some ⟨.failed, some noChunksError, .failed⟩ := by
    unfold process_doc
    rw [hzero]
    rfl
  refine ⟨hpd, by decide, ?_⟩
  intro out hout
  rw [hpd] at hout
  simp only [Option.mem_def, Option.some.injEq] at hout
  subst hout
  simp

/-- Witness for C2 (amended): an empty pages list chunks to zero chunks and
`process_doc` reports failure. -/
theorem C2_zero_chunks_is_failure_witness :
    chunk_pages 1000 200 ([] : List (List Char)) = some [] ∧
      (process_doc 1000 200 true [] [] =
        some ⟨.failed, some noChunksError, .failed⟩ ∧
      noChunksError ≠ [] ∧
      ∀ out ∈ process_doc 1000 200 true [] [],
        out.jobStatus ≠ .completed) :=
  ⟨rfl, C2_zero_chunks_is_failure 1000 200 true [] [] rfl⟩

/-- Embedding of `extract_text_from_pdf_bytes` (src/ingest/extractor.py,
lines 16-54). The two external PDF libraries are abstracted as inputs
determined by the PDF byte string:
* `hasFitz` — whether the optional PyMuPDF import succeeded;
* `fitzRes` — `.ok ps`: PyMuPDF opened the document and its page loop
  yielded the raw page texts `ps`; `.error ps`: PyMuPDF raised after
  yielding `ps` (the `except Exception: pass` keeps the pages already
  appended and falls through to the fallback);
* `plumberRes` — `.ok pts`: pdfplumber opened the document, one entry per
  page, `none` where `page.extract_text()` returned `None`; `.error ()`:
  pdfplumber raised (the `with pdfplumber.open(...)` block is not guarded,
  so the exception propagates out of the function).
Each kept page is appended stripped, and only when its stripped text is
non-empty. -/
def stripKeep (t : List Char) : Option (List Char) :=
  if (pstrip t).isEmpty then none else some (pstrip t)

/-- The pages appended by the PyMuPDF loop
(`if page_text.strip(): pages.append(page_text.strip())`), or the empty
list when the import failed. -/
def fitzPagesOf (hasFitz : Bool)
    (fitzRes : Except (List (List Char)) (List (List Char))) :
    List (List Char) :=
  (if hasFitz then
    match fitzRes with
    | .ok ps => ps
    | .error ps => ps
  else []).filterMap stripKeep

/-- The pages appended by the pdfplumber loop
(`if page_text and page_text.strip(): pages.append(page_text.strip())`). -/
def plumberKeep (t? : Option (List Char)) : Option (List Char) :=
  match t? with
  | none => none
  | some t => stripKeep t

/-- The unguarded pdfplumber fallback (extractor lines 44-54): its
exception propagates; otherwise its kept pages extend the ones PyMuPDF
already appended, and `[""]` is returned if the total is empty. -/
def plumberFallback (hasFitz : Bool)
    (fitzRes : Except (List (List Char)) (List (List Char))) :
    Except Unit (List (Option (List Char))) → Except Unit (List (List Char))
  | .error _ => .error ()
  | .ok pts =>
    if (fitzPagesOf hasFitz fitzRes ++ pts.filterMap plumberKeep).isEmpty
    then .ok [[]]
    else .ok (fitzPagesOf hasFitz fitzRes ++ pts.filterMap plumberKeep)

def extract_text_from_pdf_bytes (hasFitz : Bool)
    (fitzRes : Except (List (List Char)) (List (List Char)))
    (plumberRes : Except Unit (List (Option (List Char)))) :
    Except Unit (List (List Char)) :=
  if hasFitz && fitzRes.isOk && !(fitzPagesOf hasFitz fitzRes).isEmpty then
    .ok (fitzPagesOf hasFitz fitzRes)
  else plumberFallback hasFitz fitzRes plumberRes

example :
    extract_text_from_pdf_bytes true (.ok ["  ".data])
      (.ok [none, some "hello ".data]) = .ok ["hello".data] := by rfl

example :
    extract_text_from_pdf_bytes false (.ok []) (.ok [some "   ".data, none]) =
      .ok [[]] := by rfl

/-- Counterexample for C5 as stated: on a byte string that neither library
can parse (PyMuPDF raises, then pdfplumber raises), the function does not
return a page list at all — the fallback library's exception propagates —
contradicting "for every PDF byte string, including an unparsable one, the
function returns a list containing at least one page string". -/
theorem C5_extractor_nonempty_counterexample :
    ¬ (∀ (hasFitz : Bool) (fitzRes : Except (List (List Char)) (List (List Char)))
        (plumberRes : Except Unit (List (Option (List Char)))),
        ∃ l, extract_text_from_pdf_bytes hasFitz fitzRes plumberRes = .ok l ∧
          l ≠ []) := by
  intro h
  obtain ⟨l, hl, _⟩ := h true (.error []) (.error ())
  have hrun : extract_text_from_pdf_bytes true (.error []) (.error ()) =
      .error () := rfl
  rw [hrun] at hl
  exact Except.noConfusion hl

/-- C5 (amended): whenever `extract_text_from_pdf_bytes` returns a page
list (in particular whenever the fallback page-by-page library does not
itself raise), the list contains at least one page string — a single empty
string when neither the primary fast reader nor the fallback yields any
page — and is never empty; moreover with a non-raising fallback the
function always returns. An unparsable input that makes both libraries
raise instead propagates the fallback's exception. -/
theorem C5_extractor_nonempty (hasFitz : Bool)
    (fitzRes : Except (List (List Char)) (List (List Char)))
    (plumberRes : Except Unit (List (Option (List Char))))
    (l : List (List Char))
    (h : extract_text_from_pdf_bytes hasFitz fitzRes plumberRes = .ok l) :
    l ≠ [] := by
  unfold extract_text_from_pdf_bytes at h
  by_cases hfast : (hasFitz && fitzRes.isOk &&
      !(fitzPagesOf hasFitz fitzRes).isEmpty) = true
  · rw [if_pos hfast] at h
    cases h
    simp only [Bool.and_assoc, Bool.and_eq_true, Bool.not_eq_true'] at hfast
    intro hnil
    rw [hnil] at hfast
    exact absurd hfast.2.2 (by simp)
  · rw [if_neg hfast] at h
    cases plumberRes with
    | error e =>
      have hred : plumberFallback hasFitz fitzRes (.error e) = .error () := rfl
      rw [hred] at h
      exact Except.noConfusion h
    | ok pts =>
      have hred : plumberFallback hasFitz fitzRes (.ok pts) =
          (if (fitzPagesOf hasFitz fitzRes ++
              pts.filterMap plumberKeep).isEmpty
          then .ok [[]]
          else .ok (fitzPagesOf hasFitz fitzRes ++
              pts.filterMap plumberKeep)) := rfl
      rw [hred] at h
      by_cases hemp : (fitzPagesOf hasFitz fitzRes ++
          pts.filterMap plumberKeep).isEmpty = true
      · rw [if_pos hemp] at h
        cases h
        simp
      · rw [if_neg hemp] at h
        cases h
        simpa using hemp

/-- Witness for C5 (amended): a run where both libraries yield nothing
returns the single-empty-page list. -/
theorem C5_extractor_nonempty_witness :
    extract_text_from_pdf_bytes true (.ok []) (.ok [none]) = .ok [[]] ∧
      ([[]] : List (List Char)) ≠ [] :=
  ⟨rfl, C5_extractor_nonempty true (.ok []) (.ok [none]) [[]] rfl⟩

/-- A Document table row, with the fields `get_document_vectors` reads. -/
structure DocRow where
  id : Nat
  user_id : Nat
  title : List Char
deriving Repr, DecidableEq

/-- A Chunk table row, with the fields `get_document_vectors` returns. -/
structure ChunkRow where
  id : Nat
  document_id : Nat
  chunk_index : Nat
  content : List Char
  start_char : Nat
  end_char : Nat
  page_number : Nat
  pinecone_id : List Char
deriving Repr, DecidableEq

/-- One element of the `chunks` array in the endpoint's JSON response. -/
structure ChunkView where
  id : Nat
  chunkIndex : Nat
  contentPreview : List Char
  startChar : Nat
  endChar : Nat
  pageNumber : Nat
  pineconeId : List Char
deriving Repr, DecidableEq

/-- The two response shapes of `GET brain/{docId}/vectors` relevant to C6:
the 404 `{"error": "Document not found"}` body, and the 200 payload. -/
inductive BrainResp
  | notFound (body : List Char)
  | ok (documentId : Nat) (title : List Char) (chunks : List ChunkView)
      (totalChunks : Nat) (limit : Nat) (offset : Nat)
deriving Repr, DecidableEq

def CHUNK_PREVIEW_LEN : Nat := 400

/-- `_parse_pagination_args` (src/api/brain.py, lines 28-39): limit clamped
into [1, 200] with default handling done by the caller-supplied raw values,
offset clamped to be non-negative. -/
def parsePagination (limRaw offRaw : Int) : Nat × Nat :=
  ((max 1 (min limRaw 200)).toNat, (max 0 offRaw).toNat)

/-- Embedding of `get_document_vectors` (src/api/brain.py, lines 94-155)
for an authenticated caller resolved to internal user id `userId` (the 401
guard is before this, and the `try UUID` probe has no effect).  The
ownership check is the single query
`Document.id == doc_id AND Document.user_id == user_id`; when it finds
nothing the endpoint returns 404 "Document not found" without consulting
the chunk table. Chunks are ordered by chunk index and paginated. -/
def get_document_vectors (docs : List DocRow) (chunks : List ChunkRow)
    (userId docId : Nat) (limRaw offRaw : Int) : BrainResp :=
  let lim := (parsePagination limRaw offRaw).1
  let off := (parsePagination limRaw offRaw).2
  match docs.find? (fun d => d.id == docId && d.user_id == userId) with
  | none => .notFound ("Document not found".data)
  | some doc =>
    let q := (chunks.filter (fun c => c.document_id == docId)).mergeSort
      (fun a b => decide (a.chunk_index ≤ b.chunk_index))
    .ok docId doc.title
      (((q.drop off).take lim).map fun c =>
        ⟨c.id, c.chunk_index, c.content.take CHUNK_PREVIEW_LEN, c.start_char,
          c.end_char, c.page_number, c.pinecone_id⟩)
      q.length lim off

/-- C6: for every authenticated request to `GET brain/{documentId}/vectors`
where the requested document is not owned by the caller, the response is
404 with body "Document not found", and the response is identical whether
the document exists under a different user or does not exist at all — no
existence leakage to a non-owner (stated over two arbitrary database states
`docs₁`/`docs₂` both lacking a caller-owned row for `docId`). -/
theorem C6_vectors_no_existence_leak (docs₁ docs₂ : List DocRow)
    (chunks₁ chunks₂ : List ChunkRow) (userId docId : Nat)
    (limRaw offRaw : Int)
    (h₁ : ∀ d ∈ docs₁, ¬(d.id = docId ∧ d.user_id = userId))
    (h₂ : ∀ d ∈ docs₂, ¬(d.id = docId ∧ d.user_id = userId)) :
    get_document_vectors docs₁ chunks₁ userId docId limRaw offRaw =
      .notFound ("Document not found".data) ∧
    get_document_vectors docs₂ chunks₂ userId docId limRaw offRaw =
      .notFound ("Document not found".data) ∧
    get_document_vectors docs₁ chunks₁ userId docId limRaw offRaw =
      get_document_vectors docs₂ chunks₂ userId docId limRaw offRaw := by
  have hfind : ∀ (docs : List DocRow),
      (∀ d ∈ docs, ¬(d.id = docId ∧ d.user_id = userId)) →
      docs.find? (fun d => d.id == docId && d.user_id == userId) = none := by
    intro docs hd
    rw [List.find?_eq_none]
    intro d hmem
    have := hd d hmem
    simp only [Bool.and_eq_true, beq_iff_eq]
    intro hcon
    exact this ⟨hcon.1, hcon.2⟩
  have e₁ : get_document_vectors docs₁ chunks₁ userId docId limRaw offRaw =
      .notFound ("Document not found".data) := by
    unfold get_document_vectors
    rw [hfind docs₁ h₁]
  have e₂ : get_document_vectors docs₂ chunks₂ userId docId limRaw offRaw =
      .notFound ("Document not found".data) := by
    unfold get_document_vectors
    rw [hfind docs₂ h₂]
  exact ⟨e₁, e₂, by rw [e₁, e₂]⟩

/-- Witness for C6: the document with id 5 exists but belongs to user 99;
caller 1 gets the same 404 as for the database without any document 5. -/
theorem C6_vectors_no_existence_leak_witness :
    ((∀ d ∈ [(⟨5, 99, "secret".data⟩ : DocRow)],
        ¬(d.id = 5 ∧ d.user_id = 1)) ∧
      (∀ d ∈ ([] : List DocRow), ¬(d.id = 5 ∧ d.user_id = 1))) ∧
    (get_document_vectors [⟨5, 99, "secret".data⟩]
        [⟨1, 5, 0, "c".data, 0, 1, 1, "p".data⟩] 1 5 20 0 =
      .notFound ("Document not found".data) ∧
    get_document_vectors [] [] 1 5 20 0 =
      .notFound ("Document not found".data) ∧
    get_document_vectors [⟨5, 99, "secret".data⟩]
        [⟨1, 5, 0, "c".data, 0, 1, 1, "p".data⟩] 1 5 20 0 =
      get_document_vectors [] [] 1 5 20 0) :=
  ⟨⟨by decide, by decide⟩,
    C6_vectors_no_existence_leak [⟨5, 99, "secret".data⟩] []
      [⟨1, 5, 0, "c".data, 0, 1, 1, "p".data⟩] [] 1 5 20 0
      (by decide) (by decide)⟩

/-- The urlsafe base64 alphabet (RFC 4648, `-` and `_` for 62/63).
Strings of the crypto module are modelled as their UTF-8 byte lists
(`List Nat`): the source works on `Config.MASTER_KEY.encode()` and
`api_key.encode()`, so all length tests below are byte-accurate, and
`str.encode`/`bytes.decode` round-trip in Python. -/
def b64Alphabet : List Char :=
  "ABCDEFGHIJKLMNOPQRSTUVWXYZabcdefghijklmnopqrstuvwxyz0123456789-_".data

/-- The alphabet as byte values. -/
def b64Codes : List Nat := b64Alphabet.map Char.toNat

/-- The byte encoding digit `d` (0..63); 61 is the `'='` pad byte. -/
def alphaCode (d : Nat) : Nat := b64Codes.getD d 61

/-- The digit a byte decodes to, `none` for a byte outside the alphabet. -/
def b64Idx (c : Nat) : Option Nat := b64Codes.findIdx? (fun x => x == c)

/-- `base64.urlsafe_b64encode` over a byte list (used by `get_cipher` on
the 32-byte derived key; 32 = 3*10+2 so the tail group carries one pad). -/
def b64urlEncode : List Nat → List Nat
  | [] => []
  | [b0] =>
    [alphaCode (b0 % 256 * 65536 / 262144),
     alphaCode (b0 % 256 * 65536 / 4096 % 64), 61, 61]
  | [b0, b1] =>
    [alphaCode ((b0 % 256 * 65536 + b1 % 256 * 256) / 262144),
     alphaCode ((b0 % 256 * 65536 + b1 % 256 * 256) / 4096 % 64),
     alphaCode ((b0 % 256 * 65536 + b1 % 256 * 256) / 64 % 64), 61]
  | b0 :: b1 :: b2 :: rest =>
    [alphaCode ((b0 % 256 * 65536 + b1 % 256 * 256 + b2 % 256) / 262144),
     alphaCode ((b0 % 256 * 65536 + b1 % 256 * 256 + b2 % 256) / 4096 % 64),
     alphaCode ((b0 % 256 * 65536 + b1 % 256 * 256 + b2 % 256) / 64 % 64),
     alphaCode ((b0 % 256 * 65536 + b1 % 256 * 256 + b2 % 256) % 64)] ++
    b64urlEncode rest

/-- The final four-byte group of `base64.urlsafe_b64decode`, honouring
`'='` padding. -/
def b64DecodeLast (c0 c1 c2 c3 : Nat) : Option (List Nat) :=
  if c2 = 61 ∧ c3 = 61 then
    match b64Idx c0, b64Idx c1 with
    | some d0, some d1 => some [(d0 * 262144 + d1 * 4096) / 65536]
    | _, _ => none
  else if c3 = 61 then
    match b64Idx c0, b64Idx c1, b64Idx c2 with
    | some d0, some d1, some d2 =>
      some [(d0 * 262144 + d1 * 4096 + d2 * 64) / 65536,
            (d0 * 262144 + d1 * 4096 + d2 * 64) / 256 % 256]
    | _, _, _ => none
  else
    match b64Idx c0, b64Idx c1, b64Idx c2, b64Idx c3 with
    | some d0, some d1, some d2, some d3 =>
      some [(d0 * 262144 + d1 * 4096 + d2 * 64 + d3) / 65536,
            (d0 * 262144 + d1 * 4096 + d2 * 64 + d3) / 256 % 256,
            (d0 * 262144 + d1 * 4096 + d2 * 64 + d3) % 256]
    | _, _, _, _ => none

/-- `base64.urlsafe_b64decode` over a byte list, as performed by the
Fernet constructor on its key argument.  The model validates strictly
(a byte outside the alphabet in a non-final group fails), while Python's
decoder silently discards such bytes first; the two agree on every key
this program can hand to Fernet whose bytes are drawn from the alphabet
or padding — in particular on all encoder outputs and on all-alphabet
44-byte keys such as `b"A" * 44`. -/
def b64urlDecode : List Nat → Option (List Nat)
  | [] => some []
  | [c0, c1, c2, c3] => b64DecodeLast c0 c1 c2 c3
  | c0 :: c1 :: c2 :: c3 :: t :: ts =>
    match b64Idx c0, b64Idx c1, b64Idx c2, b64Idx c3 with
    | some d0, some d1, some d2, some d3 =>
      match b64urlDecode (t :: ts) with
      | some cs =>
        some ((d0 * 262144 + d1 * 4096 + d2 * 64 + d3) / 65536 ::
              (d0 * 262144 + d1 * 4096 + d2 * 64 + d3) / 256 % 256 ::
              (d0 * 262144 + d1 * 4096 + d2 * 64 + d3) % 256 :: cs)
      | none => none
    | _, _, _, _ => none
  | _ => none

/-- Modelled from the spec: the key validation of the external Fernet
constructor (`cryptography` library, not part of this repository):
`Fernet(key)` base64url-decodes its key and raises `ValueError` unless the
result is exactly 32 bytes. -/
def fernetCtorOk (key : List Nat) : Bool :=
  match b64urlDecode key with
  | some bs => bs.length == 32
  | none => false

/-- The key normalisation of `get_cipher` (src/security/crypto.py, lines
13-17): a key of exactly 44 bytes is used as-is; otherwise it is truncated
to its first 32 bytes (or right-padded with `b'0'`, byte 48, to 32) and
urlsafe base64-encoded. -/
def normalizeKey (mk : List Nat) : List Nat :=
  if mk.length = 44 then mk
  else
    b64urlEncode (if 32 ≤ mk.length then mk.take 32
      else mk ++ List.replicate (32 - mk.length) 48)

/-- `get_cipher` (src/security/crypto.py, lines 7-19): raises
`ValueError("MASTER_KEY not configured")` on an empty/unset master key;
otherwise hands the (possibly normalised) key to `Fernet`, whose
constructor raises unless the key is valid urlsafe base64 of exactly 32
bytes.  The model returns the accepted cipher key or the error. -/
def get_cipher (mk : List Nat) : Except Unit (List Nat) :=
  if mk.isEmpty then .error ()
  else if fernetCtorOk (normalizeKey mk) then .ok (normalizeKey mk)
  else .error ()

/-- Modelled from the spec: the Fernet cipher of the external
`cryptography` library (not part of this repository).  Only its round-trip
contract matters to the claims — for a fixed accepted key,
`Fernet(key).decrypt(Fernet(key).encrypt(m)) = m` and tokens are non-empty
— so the token is modelled as the key followed by the message (any
key-deterministic invertible encoding realises the contract; the real
token format is irrelevant here). -/
def fernetEncrypt (key msg : List Nat) : List Nat := key ++ msg

/-- Modelled from the spec: inverse of `fernetEncrypt` for the same key. -/
def fernetDecrypt (key tok : List Nat) : List Nat := tok.drop key.length

/-- `encrypt_api_key` (src/security/crypto.py, lines 22-29): empty input
returns an empty token before any cipher is constructed. -/
def encrypt_api_key (mk apiKey : List Nat) : Except Unit (List Nat) :=
  if apiKey.isEmpty then .ok []
  else (get_cipher mk).map fun k => fernetEncrypt k apiKey

/-- `decrypt_api_key` (src/security/crypto.py, lines 32-39): empty input
returns an empty plaintext before any cipher is constructed. -/
def decrypt_api_key (mk tok : List Nat) : Except Unit (List Nat) :=
  if tok.isEmpty then .ok []
  else (get_cipher mk).map fun k => fernetDecrypt k tok

example : normalizeKey ("shortkey".data.map Char.toNat) =
    "c2hvcnRrZXkwMDAwMDAwMDAwMDAwMDAwMDAwMDAwMDA=".data.map Char.toNat := by
  decide

example : (b64urlDecode (List.replicate 44 65)).map List.length =
    some 33 := by decide

example : get_cipher (List.replicate 44 65) = .error () := rfl

example : get_cipher ("shortkey".data.map Char.toNat) =
    .ok ("c2hvcnRrZXkwMDAwMDAwMDAwMDAwMDAwMDAwMDAwMDA=".data.map
      Char.toNat) := rfl

theorem b64Idx_alphaCode_fin : ∀ d : Fin 64, b64Idx (alphaCode d.val) =
    some d.val := by decide

theorem b64Idx_alphaCode {d : Nat} (hd : d < 64) :
    b64Idx (alphaCode d) = some d :=
  b64Idx_alphaCode_fin ⟨d, hd⟩

theorem alphaCode_ne_pad_fin : ∀ d : Fin 64, alphaCode d.val ≠ 61 := by
  decide

theorem alphaCode_ne_pad {d : Nat} (hd : d < 64) : alphaCode d ≠ 61 :=
  alphaCode_ne_pad_fin ⟨d, hd⟩

theorem b64urlEncode_cons_ne_nil (b : Nat) (bs : List Nat) :
    ∃ t ts, b64urlEncode (b :: bs) = t :: ts := by
  cases bs with
  | nil => exact ⟨_, _, rfl⟩
  | cons b1 bs1 =>
    cases bs1 with
    | nil => exact ⟨_, _, rfl⟩
    | cons b2 bs2 => exact ⟨_, _, rfl⟩

/-- Decoding an encoder output always succeeds and recovers the input
length — in particular a normalised 32-byte key is a valid Fernet key. -/
theorem b64_decode_encode_length :
    ∀ bs : List Nat, ∃ cs, b64urlDecode (b64urlEncode bs) = some cs ∧
      cs.length = bs.length
  | [] => ⟨[], rfl, rfl⟩
  | [b0] => by
    have h0 : b0 % 256 * 65536 / 262144 < 64 := by omega
    have h1 : b0 % 256 * 65536 / 4096 % 64 < 64 := by omega
    show ∃ cs, b64DecodeLast (alphaCode (b0 % 256 * 65536 / 262144))
      (alphaCode (b0 % 256 * 65536 / 4096 % 64)) 61 61 = some cs ∧
      cs.length = 1
    unfold b64DecodeLast
    rw [if_pos ⟨rfl, rfl⟩, b64Idx_alphaCode h0, b64Idx_alphaCode h1]
    exact ⟨_, rfl, rfl⟩
  | [b0, b1] => by
    have h0 : (b0 % 256 * 65536 + b1 % 256 * 256) / 262144 < 64 := by omega
    have h1 : (b0 % 256 * 65536 + b1 % 256 * 256) / 4096 % 64 < 64 := by
      omega
    have h2 : (b0 % 256 * 65536 + b1 % 256 * 256) / 64 % 64 < 64 := by omega
    show ∃ cs, b64DecodeLast
      (alphaCode ((b0 % 256 * 65536 + b1 % 256 * 256) / 262144))
      (alphaCode ((b0 % 256 * 65536 + b1 % 256 * 256) / 4096 % 64))
      (alphaCode ((b0 % 256 * 65536 + b1 % 256 * 256) / 64 % 64)) 61 =
      some cs ∧ cs.length = 2
    unfold b64DecodeLast
    rw [if_neg (fun hc => alphaCode_ne_pad h2 hc.1), if_pos rfl,
      b64Idx_alphaCode h0, b64Idx_alphaCode h1, b64Idx_alphaCode h2]
    exact ⟨_, rfl, rfl⟩
  | b0 :: b1 :: b2 :: rest => by
    have h0 : (b0 % 256 * 65536 + b1 % 256 * 256 + b2 % 256) / 262144 <
        64 := by omega
    have h1 : (b0 % 256 * 65536 + b1 % 256 * 256 + b2 % 256) / 4096 % 64 <
        64 := by omega
    have h2 : (b0 % 256 * 65536 + b1 % 256 * 256 + b2 % 256) / 64 % 64 <
        64 := by omega
    have h3 : (b0 % 256 * 65536 + b1 % 256 * 256 + b2 % 256) % 64 < 64 :=
      by omega
    cases rest with
    | nil =>
      show ∃ cs, b64DecodeLast
        (alphaCode ((b0 % 256 * 65536 + b1 % 256 * 256 + b2 % 256) /
          262144))
        (alphaCode ((b0 % 256 * 65536 + b1 % 256 * 256 + b2 % 256) /
          4096 % 64))
        (alphaCode ((b0 % 256 * 65536 + b1 % 256 * 256 + b2 % 256) /
          64 % 64))
        (alphaCode ((b0 % 256 * 65536 + b1 % 256 * 256 + b2 % 256) % 64)) =
        some cs ∧ cs.length = 3
      unfold b64DecodeLast
      rw [if_neg (fun hc => alphaCode_ne_pad h2 hc.1),
        if_neg (alphaCode_ne_pad h3),
        b64Idx_alphaCode h0, b64Idx_alphaCode h1, b64Idx_alphaCode h2,
        b64Idx_alphaCode h3]
      exact ⟨_, rfl, rfl⟩
    | cons r0 rrest =>
      obtain ⟨cs, hdec, hlen⟩ := b64_decode_encode_length (r0 :: rrest)
      obtain ⟨t, ts, hshape⟩ := b64urlEncode_cons_ne_nil r0 rrest
      show ∃ cs2, b64urlDecode
        (alphaCode ((b0 % 256 * 65536 + b1 % 256 * 256 + b2 % 256) /
          262144) ::
         alphaCode ((b0 % 256 * 65536 + b1 % 256 * 256 + b2 % 256) /
          4096 % 64) ::
         alphaCode ((b0 % 256 * 65536 + b1 % 256 * 256 + b2 % 256) /
          64 % 64) ::
         alphaCode ((b0 % 256 * 65536 + b1 % 256 * 256 + b2 % 256) % 64) ::
         b64urlEncode (r0 :: rrest)) = some cs2 ∧
        cs2.length = (b0 :: b1 :: b2 :: r0 :: rrest).length
      rw [hshape]
      have hred : b64urlDecode
          (alphaCode ((b0 % 256 * 65536 + b1 % 256 * 256 + b2 % 256) /
            262144) ::
           alphaCode ((b0 % 256 * 65536 + b1 % 256 * 256 + b2 % 256) /
            4096 % 64) ::
           alphaCode ((b0 % 256 * 65536 + b1 % 256 * 256 + b2 % 256) /
            64 % 64) ::
           alphaCode ((b0 % 256 * 65536 + b1 % 256 * 256 + b2 % 256) %
            64) :: t :: ts) =
          match b64urlDecode (t :: ts) with
          | some cs =>
            some (((b0 % 256 * 65536 + b1 % 256 * 256 + b2 % 256) / 262144 *
                262144 +
              (b0 % 256 * 65536 + b1 % 256 * 256 + b2 % 256) / 4096 % 64 *
                4096 +
              (b0 % 256 * 65536 + b1 % 256 * 256 + b2 % 256) / 64 % 64 *
                64 +
              (b0 % 256 * 65536 + b1 % 256 * 256 + b2 % 256) % 64) /
                65536 ::
              ((b0 % 256 * 65536 + b1 % 256 * 256 + b2 % 256) / 262144 *
                262144 +
              (b0 % 256 * 65536 + b1 % 256 * 256 + b2 % 256) / 4096 % 64 *
                4096 +
              (b0 % 256 * 65536 + b1 % 256 * 256 + b2 % 256) / 64 % 64 *
                64 +
              (b0 % 256 * 65536 + b1 % 256 * 256 + b2 % 256) % 64) / 256 %
                256 ::
              ((b0 % 256 * 65536 + b1 % 256 * 256 + b2 % 256) / 262144 *
                262144 +
              (b0 % 256 * 65536 + b1 % 256 * 256 + b2 % 256) / 4096 % 64 *
                4096 +
              (b0 % 256 * 65536 + b1 % 256 * 256 + b2 % 256) / 64 % 64 *
                64 +
              (b0 % 256 * 65536 + b1 % 256 * 256 + b2 % 256) % 64) % 256 ::
              cs)
          | none => none := by
        show (match b64Idx (alphaCode ((b0 % 256 * 65536 + b1 % 256 * 256 +
            b2 % 256) / 262144)),
          b64Idx (alphaCode ((b0 % 256 * 65536 + b1 % 256 * 256 +
            b2 % 256) / 4096 % 64)),
          b64Idx (alphaCode ((b0 % 256 * 65536 + b1 % 256 * 256 +
            b2 % 256) / 64 % 64)),
          b64Idx (alphaCode ((b0 % 256 * 65536 + b1 % 256 * 256 +
            b2 % 256) % 64)) with
          | some d0, some d1, some d2, some d3 =>
            match b64urlDecode (t :: ts) with
            | some cs =>
              some ((d0 * 262144 + d1 * 4096 + d2 * 64 + d3) / 65536 ::
                (d0 * 262144 + d1 * 4096 + d2 * 64 + d3) / 256 % 256 ::
                (d0 * 262144 + d1 * 4096 + d2 * 64 + d3) % 256 :: cs)
            | none => none
          | _, _, _, _ => none) = _
        rw [b64Idx_alphaCode h0, b64Idx_alphaCode h1, b64Idx_alphaCode h2,
          b64Idx_alphaCode h3]
      rw [hred, ← hshape, hdec]
      refine ⟨_, rfl, ?_⟩
      simp only [List.length_cons]
      rw [hlen]
      simp

theorem fernetCtorOk_encode {bs : List Nat} (h : bs.length = 32) :
    fernetCtorOk (b64urlEncode bs) = true := by
  obtain ⟨cs, hdec, hlen⟩ := b64_decode_encode_length bs
  unfold fernetCtorOk
  rw [hdec]
  simp [hlen, h]

theorem normalizeKey_ok {mk : List Nat} (hlen : mk.length ≠ 44) :
    fernetCtorOk (normalizeKey mk) = true := by
  unfold normalizeKey
  rw [if_neg hlen]
  apply fernetCtorOk_encode
  by_cases h32 : 32 ≤ mk.length
  · rw [if_pos h32]
    simp only [List.length_take]
    omega
  · rw [if_neg h32]
    simp only [List.length_append, List.length_replicate]
    omega

/-- Counterexample for C1 as stated: a non-empty MASTER_KEY of exactly 44
bytes is passed unchanged to the Fernet constructor, which rejects it
unless it is valid urlsafe base64 of exactly 32 bytes — `b"A" * 44`
decodes to 33 bytes, so `encrypt_api_key` raises instead of returning a
token, refuting the round trip "for a MASTER_KEY of any length". -/
theorem C1_crypto_roundtrip_counterexample :
    ¬ (∀ mk s : List Nat, mk ≠ [] → s ≠ [] →
        ∃ tok, encrypt_api_key mk s = .ok tok ∧
          decrypt_api_key mk tok = .ok s) := by
  intro h
  obtain ⟨tok, henc, _⟩ := h (List.replicate 44 65) [97] (by decide)
    (by decide)
  have hrun : encrypt_api_key (List.replicate 44 65) [97] = .error () := rfl
  rw [hrun] at henc
  exact Except.noConfusion henc

/-- C1 (amended): for every non-empty string `s` and non-empty MASTER_KEY
whose byte length is not 44 — such keys are deterministically normalised
by truncating/padding to 32 bytes and base64url-encoding, which the
Fernet constructor always accepts — `decrypt_api_key (encrypt_api_key s)
= s` with a non-empty token in between; encrypting the empty string
returns the empty string and decrypting the empty string returns the
empty string (no cipher is constructed for empty input).  A 44-byte key
is passed unchanged to Fernet, which raises unless it is valid urlsafe
base64 of exactly 32 bytes (see the counterexample), so "of any length"
fails. -/
theorem C1_crypto_roundtrip (mk s : List Nat) (hmk : mk ≠ [])
    (hlen : mk.length ≠ 44) (hs : s ≠ []) :
    (∃ tok, encrypt_api_key mk s = .ok tok ∧ tok ≠ [] ∧
      decrypt_api_key mk tok = .ok s) ∧
    encrypt_api_key mk [] = .ok [] ∧
    decrypt_api_key mk [] = .ok [] := by
  have hmk' : mk.isEmpty = false := by
    cases mk with
    | nil => exact absurd rfl hmk
    | cons c cs => rfl
  have hs' : s.isEmpty = false := by
    cases s with
    | nil => exact absurd rfl hs
    | cons c cs => rfl
  have hcipher : get_cipher mk = .ok (normalizeKey mk) := by
    unfold get_cipher
    rw [hmk', normalizeKey_ok hlen]
    rfl
  refine ⟨⟨normalizeKey mk ++ s, ?_, ?_, ?_⟩, rfl, rfl⟩
  · unfold encrypt_api_key
    rw [hs', hcipher]
    rfl
  · intro hnil
    have := congrArg List.length hnil
    simp only [List.length_append, List.length_nil] at this
    have : s.length = 0 := by omega
    exact hs (List.length_eq_zero.mp this)
  · unfold decrypt_api_key
    have htok : (normalizeKey mk ++ s).isEmpty = false := by
      cases hnk : normalizeKey mk with
      | nil => simpa using hs'
      | cons c cs => rfl
    rw [htok, hcipher]
    show Except.ok (fernetDecrypt (normalizeKey mk)
      (normalizeKey mk ++ s)) = Except.ok s
    unfold fernetDecrypt
    rw [List.drop_left]

/-- Witness for C1 (amended) with the one-byte master key `b"k"` and
plaintext byte `b"a"`. -/
theorem C1_crypto_roundtrip_witness :
    (([107] : List Nat) ≠ [] ∧ ([107] : List Nat).length ≠ 44 ∧
      ([97] : List Nat) ≠ []) ∧
    ((∃ tok, encrypt_api_key [107] [97] = .ok tok ∧ tok ≠ [] ∧
      decrypt_api_key [107] tok = .ok [97]) ∧
    encrypt_api_key [107] [] = .ok [] ∧
    decrypt_api_key [107] [] = .ok []) :=
  ⟨⟨by decide, by decide, by decide⟩,
    C1_crypto_roundtrip [107] [97] (by decide) (by decide) (by decide)⟩

/-- Python `s.replace(pat, rep)`: replace all non-overlapping occurrences
left to right (replaced text is not rescanned). Fuel-indexed structurally
(each step consumes at least one character, so `s.length` fuel suffices,
see `replaceAllGo_fuel`). -/
def replaceAllGo (pat rep : List Char) : Nat → List Char → List Char
  | 0, s => s
  | _fuel + 1, [] => []
  | fuel + 1, c :: rest =>
    if pat ≠ [] ∧ pat.isPrefixOf (c :: rest) then
      rep ++ replaceAllGo pat rep fuel ((c :: rest).drop pat.length)
    else c :: replaceAllGo pat rep fuel rest

def replaceAll (pat rep s : List Char) : List Char :=
  replaceAllGo pat rep s.length s

example : replaceAll "**".data [] "a**b***c".data = "ab*c".data := by decide

/-- The redundant leading phrases stripped by `format_response`
(backend/api/rag_router.py, lines 27-32), in source order. -/
def redundantStarts : List (List Char) :=
  ["Based on the provided context,".data,
   "According to the document,".data,
   "From the information provided,".data,
   "The document states that,".data]

/-- One iteration of the redundant-start loop:
`if response.startswith(start): response = response[len(start):].strip()`. -/
def stripStart (resp pre : List Char) : List Char :=
  if pre.isPrefixOf resp then pstrip (resp.drop pre.length) else resp

/-- The cleaning phase of `format_response` (rag_router.py, lines 18-36):
strip, remove `**`/`###`/`##`, then strip each redundant leading phrase. -/
def cleanResponse (resp : List Char) : List Char :=
  redundantStarts.foldl stripStart
    (replaceAll "##".data []
      (replaceAll "###".data []
        (replaceAll "**".data [] (pstrip resp))))

/-- `max(t.rfind('.'), t.rfind('!'), t.rfind('?'))` as an optional index
(`none` corresponds to the Python value -1). -/
def lastPunct (t : List Char) : Option Nat :=
  ((List.range t.length).filter
    (fun i => decide (t[i]? = some '.' ∨ t[i]? = some '!' ∨
      t[i]? = some '?'))).max?

/-- The strict-length phase (rag_router.py, lines 38-50): over 400
characters, cut at the last sentence end within the first 400 when it lies
past position 200, else hard-cut at 380 and append an ellipsis. -/
def truncate400 (r : List Char) : List Char :=
  if 400 < r.length then
    match lastPunct (r.take 400) with
    | some p => if 200 < p then (r.take 400).take (p + 1)
        else (r.take 400).take 380 ++ "...".data
    | none => (r.take 400).take 380 ++ "...".data
  else r

/-- The tuple of `response.endswith((...))` at rag_router.py line 53. -/
def terminalMarks : List (List Char) :=
  [".".data, "!".data, "?".data, "✨".data, "😊".data, "😄".data,
   "😅".data, "...".data]

def endsWithAny (t : List Char) (marks : List (List Char)) : Bool :=
  marks.any (fun m => m.isSuffixOf t)

/-- The final sentence-structure fix (rag_router.py, lines 52-54): append a
period unless the text already ends in one of the terminal marks. -/
def finalize (r : List Char) : List Char :=
  if endsWithAny r terminalMarks then r else r ++ ".".data

/-- The canned reply for empty input (rag_router.py, line 16). -/
def cannedEmpty : List Char :=
  "Sorry, I couldn't generate a response. Please try again! 😅".data

/-- `format_response` (backend/api/rag_router.py, lines 13-56). -/
def format_response (resp : List Char) : List Char :=
  if resp.isEmpty then cannedEmpty
  else finalize (truncate400 (cleanResponse resp))

example : format_response "Based on the provided context, **yes**".data =
    "yes.".data := by decide

theorem truncate400_len (r : List Char) : (truncate400 r).length ≤ 400 := by
  unfold truncate400
  by_cases hlen : 400 < r.length
  · rw [if_pos hlen]
    cases hp : lastPunct (r.take 400) with
    | none =>
      simp only [List.length_append, List.length_take, List.length_cons,
        List.length_nil]
      omega
    | some p =>
      by_cases h200 : 200 < p
      · simp only [if_pos h200, List.length_take]
        omega
      · simp only [if_neg h200, List.length_append, List.length_take,
          List.length_cons, List.length_nil]
        omega
  · rw [if_neg hlen]
    omega

theorem endsWithAny_suffix {t m : List Char} (hm : m ∈ terminalMarks)
    (hsuf : m <:+ t) : endsWithAny t terminalMarks = true := by
  unfold endsWithAny
  rw [List.any_eq_true]
  exact ⟨m, hm, List.isSuffixOf_iff_suffix.mpr hsuf⟩

theorem finalize_endsWithAny (r : List Char) :
    endsWithAny (finalize r) terminalMarks = true := by
  unfold finalize
  by_cases he : endsWithAny r terminalMarks = true
  · rwa [if_pos he]
  · rw [if_neg he]
    refine endsWithAny_suffix ?_ (List.suffix_append r (".".data))
    unfold terminalMarks
    simp

theorem finalize_len (r : List Char) :
    (finalize r).length ≤ r.length + 1 := by
  unfold finalize
  by_cases he : endsWithAny r terminalMarks = true
  · rw [if_pos he]; omega
  · rw [if_neg he]
    simp

theorem lastPunct_some {t : List Char} {p : Nat}
    (h : lastPunct t = some p) :
    p < t.length ∧ (t[p]? = some '.' ∨ t[p]? = some '!' ∨ t[p]? = some '?') := by
  have hmem : p ∈ (List.range t.length).filter
      (fun i => decide (t[i]? = some '.' ∨ t[i]? = some '!' ∨
        t[i]? = some '?')) :=
    List.max?_mem (fun a b => max_choice a b) h
  obtain ⟨hr, hpred⟩ := List.mem_filter.mp hmem
  exact ⟨List.mem_range.mp hr, of_decide_eq_true hpred⟩

theorem take_punct_endsWithAny {t : List Char} {p : Nat}
    (h : lastPunct t = some p) :
    endsWithAny (t.take (p + 1)) terminalMarks = true := by
  obtain ⟨hlt, hc⟩ := lastPunct_some h
  have htake : t.take (p + 1) = t.take p ++ t[p]?.toList := List.take_succ
  rcases hc with hc | hc | hc <;>
    · rw [htake, hc]
      refine endsWithAny_suffix ?_ (List.suffix_append _ _)
      unfold terminalMarks
      simp

set_option maxRecDepth 4000 in
/-- Counterexample for C7 as stated: `format_response` does not always
return at most 400 characters — a 400-character reply with no terminal
punctuation passes the truncation check untouched and then has a period
appended, yielding 401 characters. -/
theorem C7_format_response_counterexample :
    ¬ (∀ resp : List Char, (format_response resp).length ≤ 400) := by
  intro h
  exact absurd (h (List.replicate 400 'a')) (by decide)

/-- C7 (amended): `format_response` returns at most 401 characters (the
400-character bound can be exceeded by exactly the one period appended to
a ≤400-character reply lacking terminal punctuation; both truncation
branches stay below 400): when the cleaned reply exceeds 400 characters it
is cut at the last sentence-ending punctuation within the first 400
characters provided that position is past the 200-character mark, otherwise
truncated to 380 characters with "..." appended; and the returned text
always ends in terminal punctuation, an ellipsis, or one of the listed
emojis, with a period appended when it does not. -/
theorem C7_format_response_bounds (resp : List Char) :
    (format_response resp).length ≤ 401 ∧
    endsWithAny (format_response resp) terminalMarks = true ∧
    (∀ p, 400 < (cleanResponse resp).length →
      lastPunct ((cleanResponse resp).take 400) = some p → 200 < p →
      format_response resp = (cleanResponse resp).take (p + 1)) ∧
    (400 < (cleanResponse resp).length →
      (∀ p ∈ lastPunct ((cleanResponse resp).take 400), p ≤ 200) →
      format_response resp = (cleanResponse resp).take 380 ++ "...".data) := by
  by_cases hemp : resp.isEmpty = true
  · have hfr : format_response resp = cannedEmpty := by
      unfold format_response
      rw [if_pos hemp]
    have hresp : resp = [] := by
      cases resp with
      | nil => rfl
      | cons c cs => exact absurd hemp (by simp)
    subst hresp
    refine ⟨by rw [hfr]; decide, by rw [hfr]; decide, ?_, ?_⟩
    · intro p h400 _ _
      exact absurd h400 (by decide)
    · intro h400 _
      exact absurd h400 (by decide)
  · have hfr : format_response resp =
        finalize (truncate400 (cleanResponse resp)) := by
      unfold format_response
      rw [if_neg hemp]
    refine ⟨?_, ?_, ?_, ?_⟩
    · rw [hfr]
      have h1 := truncate400_len (cleanResponse resp)
      have h2 := finalize_len (truncate400 (cleanResponse resp))
      omega
    · rw [hfr]
      exact finalize_endsWithAny _
    · intro p h400 hp h200
      have hplt : p < 400 := by
        have := (lastPunct_some hp).1
        simp only [List.length_take] at this
        omega
      have hmin : (p + 1) ⊓ 400 = p + 1 := by omega
      have htr : truncate400 (cleanResponse resp) =
          (cleanResponse resp).take (p + 1) := by
        unfold truncate400
        rw [if_pos h400, hp]
        show (if 200 < p
          then List.take (p + 1) (List.take 400 (cleanResponse resp))
          else List.take 380 (List.take 400 (cleanResponse resp)) ++
            "...".data) = List.take (p + 1) (cleanResponse resp)
        rw [if_pos h200, List.take_take, hmin]
      rw [hfr, htr]
      unfold finalize
      have hend : endsWithAny ((cleanResponse resp).take (p + 1))
          terminalMarks = true := by
        have hx := take_punct_endsWithAny hp
        rwa [List.take_take, hmin] at hx
      rw [if_pos hend]
    · intro h400 hple
      have htr : truncate400 (cleanResponse resp) =
          (cleanResponse resp).take 380 ++ "...".data := by
        unfold truncate400
        rw [if_pos h400]
        cases hp : lastPunct ((cleanResponse resp).take 400) with
        | none =>
          rw [List.take_take]
          rfl
        | some p =>
          have hle : p ≤ 200 := hple p (by rw [hp]; rfl)
          show (if 200 < p
            then List.take (p + 1) (List.take 400 (cleanResponse resp))
            else List.take 380 (List.take 400 (cleanResponse resp)) ++
              "...".data) = List.take 380 (cleanResponse resp) ++ "...".data
          rw [if_neg (by omega), List.take_take]
          rfl
      rw [hfr, htr]
      unfold finalize
      rw [if_pos (endsWithAny_suffix (by unfold terminalMarks; simp)
        (List.suffix_append _ ("...".data)))]

/-- Witness for C7 (amended) on a concrete short reply. -/
theorem C7_format_response_bounds_witness :
    (format_response "ok".data).length ≤ 401 ∧
      endsWithAny (format_response "ok".data) terminalMarks = true :=
  ⟨(C7_format_response_bounds "ok".data).1,
    (C7_format_response_bounds "ok".data).2.1⟩

/-- Python `s.split()` (no argument): split on whitespace runs, dropping
empty pieces; `acc` accumulates the current word reversed. -/
def splitWsGo : List Char → List Char → List (List Char)
  | [], acc => if acc.isEmpty then [] else [acc.reverse]
  | c :: rest, acc =>
    if c.isWhitespace then
      if acc.isEmpty then splitWsGo rest [] else acc.reverse :: splitWsGo rest []
    else splitWsGo rest (c :: acc)

def splitWs (s : List Char) : List (List Char) := splitWsGo s []

example : splitWs "  cat dog\n fox ".data =
    ["cat".data, "dog".data, "fox".data] := by decide

/-- Python `s.lower()` per code point. -/
def toLowerL (s : List Char) : List Char := s.map Char.toLower

/-- Python substring test `pat in hay`. -/
def isSub (pat hay : List Char) : Bool :=
  (List.range (hay.length + 1)).any (fun i => pat.isPrefixOf (hay.drop i))

/-- The accumulation loop of the word-bag `chunk_text`
(backend/services/pdf_processor.py, lines 46-65): words are greedily packed
while `current_size + len(word)` stays within `chunk_size` (size counts one
joining space per word), with a final flush of the open chunk. -/
def wbGo (chunk_size : Nat) : List (List Char) → List (List Char) → Nat →
    List (List Char)
  | [], cur, _ => if cur.isEmpty then [] else [List.intercalate [' '] cur]
  | w :: rest, cur, size =>
    if chunk_size < size + w.length ∧ ¬cur.isEmpty then
      List.intercalate [' '] cur :: wbGo chunk_size rest [w] w.length
    else wbGo chunk_size rest (cur ++ [w]) (size + w.length + 1)

/-- `chunk_text(text, chunk_size=1000)` of the keyword-RAG variant. -/
def chunk_text_wb (chunk_size : Nat) (text : List Char) : List (List Char) :=
  wbGo chunk_size (splitWs text) [] 0

example : chunk_text_wb 7 "aa bb cc dd".data =
    ["aa bb".data, "cc dd".data] := by decide

/-- A stored PDF record as consumed by `search_in_pdfs`
(`{"filename": ..., "text": ...}`). -/
structure PdfText where
  filename : List Char
  text : List Char
deriving Repr, DecidableEq

/-- A scored entry of `relevant_chunks`
(`{"text": chunk[:800], "filename": ..., "score": ...}`). -/
structure ScoredChunk where
  text : List Char
  filename : List Char
  score : Nat
deriving Repr, DecidableEq

/-- `score = sum(1 for word in query_words if word in chunk_lower)`. -/
def scoreChunk (queryWords : List (List Char)) (chunkLower : List Char) :
    Nat :=
  (queryWords.filter (fun w => isSub w chunkLower)).length

/-- The scoring loops of `search_in_pdfs`
(backend/services/pdf_processor.py, lines 67-86): every chunk of every
stored PDF with a positive score, in encounter order. -/
def relevantChunks (query : List Char) (pdfs : List PdfText) :
    List ScoredChunk :=
  pdfs.flatMap fun pdf =>
    (chunk_text_wb 1000 pdf.text).filterMap fun c =>
      if 0 < scoreChunk (splitWs (toLowerL query)) (toLowerL c) then
        some ⟨c.take 800, pdf.filename,
          scoreChunk (splitWs (toLowerL query)) (toLowerL c)⟩
      else none

/-- `relevant_chunks.sort(key=lambda x: x["score"], reverse=True)`: a
stable descending sort by score. -/
def sortedRelevant (query : List Char) (pdfs : List PdfText) :
    List ScoredChunk :=
  (relevantChunks query pdfs).mergeSort (fun a b => decide (b.score ≤ a.score))

/-- `search_in_pdfs(query, pdf_texts, max_chunks=3)`: formatted top
`max_chunks` results. -/
def search_in_pdfs (query : List Char) (pdfs : List PdfText)
    (max_chunks : Nat) : List (List Char) :=
  ((sortedRelevant query pdfs).take max_chunks).map fun c =>
    "[".data ++ c.filename ++ "] ".data ++ c.text

example :
    relevantChunks "cat dog".data
      [⟨"a.pdf".data, "the cat saw the dog".data⟩,
       ⟨"b.pdf".data, "only a cat".data⟩] =
    [⟨"the cat saw the dog".data, "a.pdf".data, 2⟩,
     ⟨"only a cat".data, "b.pdf".data, 1⟩] := by decide

theorem relevantChunks_pos (query : List Char) (pdfs : List PdfText) :
    ∀ c ∈ relevantChunks query pdfs, 0 < c.score := by
  intro c hc
  unfold relevantChunks at hc
  obtain ⟨pdf, _, hcf⟩ := List.mem_flatMap.mp hc
  obtain ⟨x, _, hx⟩ := List.mem_filterMap.mp hcf
  by_cases hpos : 0 < scoreChunk (splitWs (toLowerL query)) (toLowerL x)
  · rw [if_pos hpos] at hx
    cases hx
    exact hpos
  · rw [if_neg hpos] at hx
    exact Option.noConfusion hx

theorem sortedRelevant_perm (query : List Char) (pdfs : List PdfText) :
    (sortedRelevant query pdfs).Perm (relevantChunks query pdfs) :=
  List.mergeSort_perm _ _

theorem sortedRelevant_sorted (query : List Char) (pdfs : List PdfText) :
    List.Pairwise (fun a b => b.score ≤ a.score)
      (sortedRelevant query pdfs) := by
  have h := @List.sorted_mergeSort ScoredChunk
    (fun a b : ScoredChunk => decide (b.score ≤ a.score))
    (fun a b c hab hbc => by
      simp only [decide_eq_true_eq] at *
      omega)
    (fun a b => by
      simp only [Bool.or_eq_true, decide_eq_true_eq]
      exact Nat.le_total b.score a.score)
    (relevantChunks query pdfs)
  exact h.imp (fun hab => of_decide_eq_true hab)

/-- C8: for every query whose lowercased word list has 3 distinct words,
and every stored PDF set whose word-bag chunks include a chunk `X`
containing all 3 query words (as substrings of the lowercased chunk) and a
chunk `Y` containing exactly 1, `search_in_pdfs` assigns `X` score 3 and
`Y` score 1 (so `X`'s score ≥ `Y`'s), both appear in the relevance list
(positive scores only are kept), the list is sorted by score descending so
every entry of `X` is ranked before every entry of `Y`, and at most
`max_chunks` results are returned. -/
theorem C8_keyword_search_ranking (query : List Char) (pdfs : List PdfText)
    (pdfX pdfY : PdfText) (X Y : List Char)
    (h3 : (splitWs (toLowerL query)).length = 3)
    (hnd : (splitWs (toLowerL query)).Nodup)
    (hpX : pdfX ∈ pdfs) (hXc : X ∈ chunk_text_wb 1000 pdfX.text)
    (hpY : pdfY ∈ pdfs) (hYc : Y ∈ chunk_text_wb 1000 pdfY.text)
    (hXall : ∀ w ∈ splitWs (toLowerL query), isSub w (toLowerL X) = true)
    (hYone : ((splitWs (toLowerL query)).filter
      (fun w => isSub w (toLowerL Y))).length = 1) :
    scoreChunk (splitWs (toLowerL query)) (toLowerL X) = 3 ∧
    scoreChunk (splitWs (toLowerL query)) (toLowerL Y) = 1 ∧
    scoreChunk (splitWs (toLowerL query)) (toLowerL Y) ≤
      scoreChunk (splitWs (toLowerL query)) (toLowerL X) ∧
    (⟨X.take 800, pdfX.filename, 3⟩ : ScoredChunk) ∈
      sortedRelevant query pdfs ∧
    (⟨Y.take 800, pdfY.filename, 1⟩ : ScoredChunk) ∈
      sortedRelevant query pdfs ∧
    List.Pairwise (fun a b => b.score ≤ a.score)
      (sortedRelevant query pdfs) ∧
    (∀ c ∈ sortedRelevant query pdfs, 0 < c.score) ∧
    (∀ i j (hi : i < (sortedRelevant query pdfs).length)
        (hj : j < (sortedRelevant query pdfs).length),
      (sortedRelevant query pdfs).get ⟨i, hi⟩ =
        ⟨X.take 800, pdfX.filename, 3⟩ →
      (sortedRelevant query pdfs).get ⟨j, hj⟩ =
        ⟨Y.take 800, pdfY.filename, 1⟩ → i < j) ∧
    (∀ mx, (search_in_pdfs query pdfs mx).length ≤ mx) := by
  have hscX : scoreChunk (splitWs (toLowerL query)) (toLowerL X) = 3 := by
    unfold scoreChunk
    rw [List.filter_eq_self.mpr hXall]
    exact h3
  have hscY : scoreChunk (splitWs (toLowerL query)) (toLowerL Y) = 1 := hYone
  have hXmem : (⟨X.take 800, pdfX.filename, 3⟩ : ScoredChunk) ∈
      relevantChunks query pdfs := by
    unfold relevantChunks
    rw [List.mem_flatMap]
    refine ⟨pdfX, hpX, ?_⟩
    rw [List.mem_filterMap]
    refine ⟨X, hXc, ?_⟩
    rw [hscX, if_pos (by omega)]
  have hYmem : (⟨Y.take 800, pdfY.filename, 1⟩ : ScoredChunk) ∈
      relevantChunks query pdfs := by
    unfold relevantChunks
    rw [List.mem_flatMap]
    refine ⟨pdfY, hpY, ?_⟩
    rw [List.mem_filterMap]
    refine ⟨Y, hYc, ?_⟩
    rw [hscY, if_pos (by omega)]
  have hperm := sortedRelevant_perm query pdfs
  have hsorted := sortedRelevant_sorted query pdfs
  refine ⟨hscX, hscY, by omega, hperm.mem_iff.mpr hXmem,
    hperm.mem_iff.mpr hYmem, hsorted, ?_, ?_, ?_⟩
  · intro c hc
    exact relevantChunks_pos query pdfs c (hperm.mem_iff.mp hc)
  · intro i j hi hj hXi hYj
    rcases Nat.lt_trichotomy i j with hlt | heq | hgt
    · exact hlt
    · subst heq
      rw [hXi] at hYj
      have := congrArg ScoredChunk.score hYj
      simp at this
    · have hp := List.pairwise_iff_getElem.mp hsorted j i hj hi hgt
      rw [List.get_eq_getElem] at hXi hYj
      rw [hXi, hYj] at hp
      simp at hp
  · intro mx
    unfold search_in_pdfs
    rw [List.length_map]
    exact List.length_take_le mx _

/-- Witness for C8: query "cat dog fox", one PDF whose single chunk holds
all three words, another whose single chunk holds only "cat". -/
theorem C8_keyword_search_ranking_witness :
    ((splitWs (toLowerL "cat dog fox".data)).length = 3 ∧
      (splitWs (toLowerL "cat dog fox".data)).Nodup ∧
      (⟨"a.pdf".data, "cat dog fox".data⟩ : PdfText) ∈
        [(⟨"a.pdf".data, "cat dog fox".data⟩ : PdfText),
         ⟨"b.pdf".data, "cat only here".data⟩] ∧
      "cat dog fox".data ∈ chunk_text_wb 1000 "cat dog fox".data ∧
      "cat only here".data ∈ chunk_text_wb 1000 "cat only here".data ∧
      (∀ w ∈ splitWs (toLowerL "cat dog fox".data),
        isSub w (toLowerL "cat dog fox".data) = true) ∧
      ((splitWs (toLowerL "cat dog fox".data)).filter
        (fun w => isSub w (toLowerL "cat only here".data))).length = 1) ∧
    scoreChunk (splitWs (toLowerL "cat dog fox".data))
      (toLowerL "cat dog fox".data) = 3 ∧
    scoreChunk (splitWs (toLowerL "cat dog fox".data))
      (toLowerL "cat only here".data) = 1 :=
  ⟨⟨by decide, by decide, by decide, by decide, by decide, by decide,
      by decide⟩,
    (C8_keyword_search_ranking "cat dog fox".data
      [⟨"a.pdf".data, "cat dog fox".data⟩,
       ⟨"b.pdf".data, "cat only here".data⟩]
      ⟨"a.pdf".data, "cat dog fox".data⟩
      ⟨"b.pdf".data, "cat only here".data⟩
      "cat dog fox".data "cat only here".data
      (by decide) (by decide) (by decide) (by decide) (by decide) (by decide)
      (by decide) (by decide)).1,
    (C8_keyword_search_ranking "cat dog fox".data
      [⟨"a.pdf".data, "cat dog fox".data⟩,
       ⟨"b.pdf".data, "cat only here".data⟩]
      ⟨"a.pdf".data, "cat dog fox".data⟩
      ⟨"b.pdf".data, "cat only here".data⟩
      "cat dog fox".data "cat only here".data
      (by decide) (by decide) (by decide) (by decide) (by decide) (by decide)
      (by decide) (by decide)).2.1⟩

end Fynorra
